import Mathlib

set_option maxRecDepth 8000

/-!
Verification of the BerryRAG retrieval core, modelled from `src/rag_system.py` and
`src/rag_system_pgvector.py`.

Conventions of the shallow embedding:
* Python strings are `List Char`; numeric values (numpy float64) are modelled as `ℚ`.
* `np.linalg.norm` takes a square root; the square root is abstracted as an explicit
  function parameter `sq : ℚ → ℚ`, and every theorem about similarity holds for an
  arbitrary such function.
* `hashlib.md5`/SHA-256 digests are abstracted: the md5 hex digest becomes a function
  parameter `hash : List Char → List Char`, and the SHA-256 digest of a text becomes a
  `List Nat` of its bytes (always 32 bytes, each `< 256`).
* Database tables are lists of rows in insertion order; the SQLite `documents` table and
  the per-chunk `.npy` vector files are modelled jointly as rows carrying an
  `Option (List ℚ)` embedding (`none` = no vector file / NULL column).
* Timestamps are `Nat` (ISO strings compare chronologically).
-/

namespace BerryRAG

/-- The whitespace set of Python `str.strip`. -/
def isPySpace (c : Char) : Bool :=
  c = ' ' || c = '\t' || c = '\n' || c = '\r' || c = '\x0b' || c = '\x0c'

/-- Python `str.strip()`: remove leading and trailing whitespace. -/
def strip (l : List Char) : List Char :=
  ((l.dropWhile isPySpace).reverse.dropWhile isPySpace).reverse

/-- Auxiliary scan for `rfind2`: index of the last occurrence of the two-character
pattern, `-1` if absent (Python `str.rfind` on a two-character needle). -/
def rfind2Aux (c1 c2 : Char) : List Char → Nat → Int → Int
  | [], _, best => best
  | [_], _, best => best
  | a :: b :: rest, i, best =>
      rfind2Aux c1 c2 (b :: rest) (i + 1) (if a = c1 ∧ b = c2 then (i : Int) else best)

/-- Python `w.rfind(c1 + c2)`. -/
def rfind2 (w : List Char) (c1 c2 : Char) : Int := rfind2Aux c1 c2 w 0 (-1)

/-- Auxiliary scan for `rfind1`. -/
def rfind1Aux (c : Char) : List Char → Nat → Int → Int
  | [], _, best => best
  | a :: rest, i, best => rfind1Aux c rest (i + 1) (if a = c then (i : Int) else best)

/-- Python `w.rfind(c)` for a single character. -/
def rfind1 (w : List Char) (c : Char) : Int := rfind1Aux c w 0 (-1)

/-- `max([b for b in sentence_breaks if b > start + chunk_size // 2] or [-1])` of
`chunk_text`: the Python `//` on the nonnegative `start + cs // 2` is `Nat` division. -/
def sentenceBreakOf (cs start : Nat) (w : List Char) : Int :=
  (([rfind2 w '.' ' ', rfind2 w '.' '\n', rfind2 w '?' ' ', rfind2 w '!' ' ']).filter
    (fun b => decide (((start + cs / 2 : Nat) : Int) < b))).foldl max (-1)

/-- The boundary-selection step of `BerryRAGSystem.chunk_text` (both backends,
`rag_system.py` lines 172-191): given the window `w = text[start:start+cs]`, return the
adjusted absolute cut position `end`.  Note that the `rfind` results are offsets inside
the window, yet the code compares them against `start + cs // 2` (resp. `cs // 3`). -/
def cutEnd (cs start : Nat) (w : List Char) : Nat :=
  if 0 < sentenceBreakOf cs start w then start + (sentenceBreakOf cs start w).toNat + 1
  else if ((start + cs / 3 : Nat) : Int) < rfind2 w '\n' '\n' then
    start + (rfind2 w '\n' '\n').toNat + 2
  else if ((start + cs / 2 : Nat) : Int) < rfind1 w '\n' then
    start + (rfind1 w '\n').toNat + 1
  else start + cs

/-- The current window `text[start : start + cs]`. -/
def windowOf (cs : Nat) (text : List Char) (start : Nat) : List Char :=
  (text.drop start).take cs

/-- The `while start < len(text)` loop of `chunk_text`, fuelled.  One unit of fuel per
iteration; the fuel chosen in `chunk_text` is sufficient whenever every iteration
advances `start` (proved for the default parameters in the C10 theorem). -/
def chunkLoop (cs ov : Nat) (text : List Char) : Nat → Nat → List (List Char)
  | 0, _ => []
  | fuel + 1, start =>
    if start < text.length then
      if text.length ≤ start + cs then
        if strip (text.drop start) = [] then [] else [strip (text.drop start)]
      else
        if strip ((text.drop start).take (cutEnd cs start (windowOf cs text start) - start)) = [] then
          chunkLoop cs ov text fuel (cutEnd cs start (windowOf cs text start) - ov)
        else
          strip ((text.drop start).take (cutEnd cs start (windowOf cs text start) - start))
            :: chunkLoop cs ov text fuel (cutEnd cs start (windowOf cs text start) - ov)
    else []

/-- `BerryRAGSystem.chunk_text` (`rag_system.py` lines 155-201). -/
def chunk_text (cs ov : Nat) (text : List Char) : List (List Char) :=
  if text.length ≤ cs then [text] else chunkLoop cs ov text (text.length + 1) 0

/-- Modelled from the spec: the boundary-acceptance rule of §4.1, which searches the
second half of the *window* — a boundary at window offset `b` (absolute position
`start + b`) is a sentence/line candidate iff `b > cs / 2`, paragraph iff `b > cs / 3`.
Used only to exhibit the divergence from `cutEnd` for claim C1. -/
def specCutEnd (cs start : Nat) (w : List Char) : Nat :=
  if 0 < sentenceBreakOf cs 0 w then start + (sentenceBreakOf cs 0 w).toNat + 1
  else if ((cs / 3 : Nat) : Int) < rfind2 w '\n' '\n' then
    start + (rfind2 w '\n' '\n').toNat + 2
  else if ((cs / 2 : Nat) : Int) < rfind1 w '\n' then
    start + (rfind1 w '\n').toNat + 1
  else start + cs

/-- 27 `a`s, a sentence terminator, 10 `b`s: with `chunk_size = 20, overlap = 5` the
second window (`start = 15`) holds the terminator at absolute position 27, inside the
window's second half. -/
def c1text : List Char := List.replicate 27 'a' ++ '.' :: ' ' :: List.replicate 10 'b'

/-- Claim C1: the boundary-acceptance rule does NOT hold for every window.  With
`chunk_size = 20, overlap = 5`, the second window starts at 15 and contains the
sentence terminator at window offset 12 (absolute position 27, inside the second half
of the window, `27 > 15 + 20/2`).  The claimed rule (`specCutEnd`, window-relative
offsets against `chunk_size/2`) cuts at 28; the code (`cutEnd`) compares the
window-relative offset 12 against `start + chunk_size//2 = 25`, rejects every
boundary, and cuts at the raw boundary 35, so the emitted chunks keep the raw cut. -/
theorem chunk_text_boundary_rule_bug :
    chunk_text 20 5 c1text =
      [List.replicate 20 'a',
       List.replicate 12 'a' ++ '.' :: ' ' :: List.replicate 6 'b',
       List.replicate 9 'b']
    ∧ rfind2 (windowOf 20 c1text 15) '.' ' ' = 12
    ∧ cutEnd 20 15 (windowOf 20 c1text 15) = 35
    ∧ specCutEnd 20 15 (windowOf 20 c1text 15) = 28 := by decide

lemma rfind2Aux_cases (c1 c2 : Char) :
    ∀ (l : List Char) (i : Nat) (best : Int),
      rfind2Aux c1 c2 l i best = best ∨
        ((i : Int) ≤ rfind2Aux c1 c2 l i best ∧
          rfind2Aux c1 c2 l i best < (i : Int) + l.length)
  | [], _, _ => Or.inl rfl
  | [_], _, _ => Or.inl rfl
  | a :: b :: rest, i, best => by
      have hlen : ((a :: b :: rest).length : Int) = ((b :: rest).length : Int) + 1 := by
        push_cast [List.length_cons]
        ring
      have hlen2 : (0 : Int) ≤ ((b :: rest).length : Int) := Int.ofNat_nonneg _
      rw [rfind2Aux]
      rcases rfind2Aux_cases c1 c2 (b :: rest) (i + 1)
          (if a = c1 ∧ b = c2 then (i : Int) else best) with h | ⟨h1, h2⟩
      · rw [h]
        by_cases hc : a = c1 ∧ b = c2
        · rw [if_pos hc]
          refine Or.inr ⟨le_refl _, ?_⟩
          omega
        · rw [if_neg hc]; exact Or.inl rfl
      · refine Or.inr ⟨by omega, ?_⟩
        omega

lemma rfind1Aux_cases (c : Char) :
    ∀ (l : List Char) (i : Nat) (best : Int),
      rfind1Aux c l i best = best ∨
        ((i : Int) ≤ rfind1Aux c l i best ∧
          rfind1Aux c l i best < (i : Int) + l.length)
  | [], _, _ => Or.inl rfl
  | a :: rest, i, best => by
      have hlen : ((a :: rest).length : Int) = (rest.length : Int) + 1 := by
        push_cast [List.length_cons]
        ring
      have hlen2 : (0 : Int) ≤ (rest.length : Int) := Int.ofNat_nonneg _
      rw [rfind1Aux]
      rcases rfind1Aux_cases c rest (i + 1)
          (if a = c then (i : Int) else best) with h | ⟨h1, h2⟩
      · rw [h]
        by_cases hc : a = c
        · rw [if_pos hc]
          refine Or.inr ⟨le_refl _, ?_⟩
          omega
        · rw [if_neg hc]; exact Or.inl rfl
      · refine Or.inr ⟨by omega, ?_⟩
        omega

lemma foldl_max_cases : ∀ (l : List Int) (a : Int), l.foldl max a = a ∨ l.foldl max a ∈ l
  | [], _ => Or.inl rfl
  | b :: l, a => by
      rw [List.foldl_cons]
      rcases foldl_max_cases l (max a b) with h | h
      · rw [h]
        rcases max_choice a b with h' | h'
        · exact Or.inl h'
        · rw [h']
          exact Or.inr (List.mem_cons_self _ _)
      · exact Or.inr (List.mem_cons_of_mem _ h)

/-- If the selected sentence break is not the sentinel `-1`, it passed the filter:
it exceeds `start + cs / 2`. -/
lemma sentenceBreakOf_cases (cs start : Nat) (w : List Char) :
    sentenceBreakOf cs start w = -1 ∨
      ((start + cs / 2 : Nat) : Int) < sentenceBreakOf cs start w := by
  rw [sentenceBreakOf]
  rcases foldl_max_cases
      ((([rfind2 w '.' ' ', rfind2 w '.' '\n', rfind2 w '?' ' ', rfind2 w '!' ' ']).filter
        (fun b => decide (((start + cs / 2 : Nat) : Int) < b)))) (-1) with h | h
  · exact Or.inl h
  · have hmem := (List.mem_filter.mp h).2
    rw [decide_eq_true_eq] at hmem
    exact Or.inr hmem

/-- With the default `chunk_size = 500`, every accepted cut lies strictly beyond
`start + 50`, so the next window start `cutEnd - overlap` strictly advances. -/
lemma cutEnd_advance (start : Nat) (w : List Char) :
    start + 50 < cutEnd 500 start w := by
  rw [cutEnd]
  split_ifs with h1 h2 h3
  · rcases sentenceBreakOf_cases 500 start w with h | h
    · omega
    · have hd : (500 : Nat) / 2 = 250 := by norm_num
      rw [hd] at h
      omega
  · have hd : (500 : Nat) / 3 = 166 := by norm_num
    rw [hd] at h2
    omega
  · have hd : (500 : Nat) / 2 = 250 := by norm_num
    rw [hd] at h3
    omega
  · omega

/-- Fuel does not matter once it dominates the remaining length (default parameters):
the chunking loop terminates. -/
lemma chunkLoop_fuel (text : List Char) :
    ∀ (f₁ f₂ start : Nat), text.length - start ≤ f₁ → text.length - start ≤ f₂ →
      chunkLoop 500 50 text f₁ start = chunkLoop 500 50 text f₂ start := by
  intro f₁
  induction f₁ with
  | zero =>
      intro f₂ start h1 _
      have hge : text.length ≤ start := by omega
      cases f₂ with
      | zero => rfl
      | succ f => rw [chunkLoop, chunkLoop, if_neg (by omega)]
  | succ f ih =>
      intro f₂ start h1 h2
      cases f₂ with
      | zero =>
          have hge : text.length ≤ start := by omega
          rw [chunkLoop, chunkLoop, if_neg (by omega)]
      | succ g =>
          rw [chunkLoop, chunkLoop]
          by_cases hlt : start < text.length
          · rw [if_pos hlt, if_pos hlt]
            by_cases htr : text.length ≤ start + 500
            · rw [if_pos htr, if_pos htr]
            · rw [if_neg htr, if_neg htr]
              have hadv := cutEnd_advance start (windowOf 500 text start)
              have hrec : chunkLoop 500 50 text f
                    (cutEnd 500 start (windowOf 500 text start) - 50)
                  = chunkLoop 500 50 text g
                    (cutEnd 500 start (windowOf 500 text start) - 50) := by
                apply ih
                · omega
                · omega
              rw [hrec]
          · rw [if_neg hlt, if_neg hlt]

/-- Claim C10: with the default parameters `chunk_size = 500, overlap = 50`,
`chunk_text` terminates — the fuel `text.length + 1` used by `chunk_text` is in the
stable region (any larger fuel gives the same result), the window start strictly
advances at every non-final iteration (`overlap + start < cutEnd`), and the trailing
partial text is emitted as a final chunk exactly when it is non-empty after
stripping. -/
theorem chunk_text_default_terminates (text : List Char) :
    (∀ fuel, text.length + 1 ≤ fuel →
        chunkLoop 500 50 text fuel 0 = chunkLoop 500 50 text (text.length + 1) 0)
    ∧ (∀ start, start + 500 < text.length →
        start + 50 < cutEnd 500 start (windowOf 500 text start))
    ∧ (∀ fuel start, start < text.length → text.length ≤ start + 500 →
        chunkLoop 500 50 text (fuel + 1) start =
          if strip (text.drop start) = [] then [] else [strip (text.drop start)]) := by
  refine ⟨?_, ?_, ?_⟩
  · intro fuel hf
    exact chunkLoop_fuel text fuel (text.length + 1) 0 (by omega) (by omega)
  · intro start _
    exact cutEnd_advance start _
  · intro fuel start h1 h2
    rw [chunkLoop, if_pos h1, if_pos h2]

/-- Witness for C10: every hypothesis discharged at concrete inputs. -/
theorem chunk_text_default_terminates_witness :
    chunkLoop 500 50 ['h', 'i'] 9 0 = chunkLoop 500 50 ['h', 'i'] 3 0
    ∧ 0 + 50 < cutEnd 500 0 (windowOf 500 (List.replicate 501 'a') 0)
    ∧ chunkLoop 500 50 ['h', 'i'] 1 0 =
        (if strip (List.drop 0 ['h', 'i']) = [] then [] else [strip (List.drop 0 ['h', 'i'])]) :=
  ⟨(chunk_text_default_terminates ['h', 'i']).1 9 (by decide),
   (chunk_text_default_terminates (List.replicate 501 'a')).2.1 0 (by decide),
   (chunk_text_default_terminates ['h', 'i']).2.2 0 0 (by decide) (by decide)⟩

/-! ## Embedding provider (`EmbeddingProvider`, `rag_system.py` lines 53-113) -/

/-- `EmbeddingProvider._simple_embedding` (lines 105-113): the digest is the list of
SHA-256 digest bytes of the encoded text (always 32 bytes, each `< 256` — the hashing
itself is external `hashlib`); `dim` is `self.embedding_dim`, set to 128 for the simple
provider (line 83). -/
def simple_embedding (dim : Nat) (digest : List Nat) : List ℚ :=
  (digest.take dim).map (fun (b : Nat) => ((b : ℚ) - 128) / 128)

/-- Claim C2: with the declared dimension 128, the simple embedding of a 32-byte
SHA-256 digest has only 32 components — not 128 — though each component does lie in
`[-1, 1]`.  (`hash_bytes[:128]` of a 32-byte digest is the whole 32-byte digest.) -/
theorem simple_embedding_dim (digest : List Nat)
    (hlen : digest.length = 32) (hbytes : ∀ b ∈ digest, b < 256) :
    (simple_embedding 128 digest).length = 32
    ∧ ∀ x ∈ simple_embedding 128 digest, -1 ≤ x ∧ x ≤ 1 := by
  constructor
  · simp [simple_embedding, hlen]
  · intro x hx
    rw [simple_embedding] at hx
    rcases List.mem_map.mp hx with ⟨b, hb, hxb⟩
    have hb' : b < 256 := hbytes b ((List.take_sublist _ _).subset hb)
    have hbq : (b : ℚ) < 256 := by exact_mod_cast hb'
    have hbq0 : (0 : ℚ) ≤ (b : ℚ) := Nat.cast_nonneg b
    constructor
    · rw [← hxb, le_div_iff₀ (by norm_num : (0 : ℚ) < 128)]
      linarith
    · rw [← hxb, div_le_iff₀ (by norm_num : (0 : ℚ) < 128)]
      linarith

/-- Witness for C2 at a concrete 32-byte digest. -/
theorem simple_embedding_dim_witness :
    (simple_embedding 128 (List.range 32)).length = 32
    ∧ ∀ x ∈ simple_embedding 128 (List.range 32), -1 ≤ x ∧ x ≤ 1 :=
  simple_embedding_dim (List.range 32) (by decide) (by decide)

/-! ## Cosine similarity (`BerryRAGSystem.search`, `rag_system.py` lines 297-304) -/

/-- `np.dot` on equal-length vectors. -/
def dotProduct (xs ys : List ℚ) : ℚ := (List.zipWith (fun a b => a * b) xs ys).sum

/-- The squared Euclidean norm; `np.linalg.norm xs = √(normSq xs)`. -/
def normSq (xs : List ℚ) : ℚ := dotProduct xs xs

/-- The similarity computation of `search`: `norms = ‖q‖ * ‖e‖`; if `norms == 0` the
similarity is `0.0`, else `dot / norms`.  The square root inside `np.linalg.norm` is
abstracted as the function parameter `sq`; every theorem holds for arbitrary `sq`. -/
def cosineSim (sq : ℚ → ℚ) (q e : List ℚ) : ℚ :=
  if sq (normSq q) * sq (normSq e) = 0 then 0
  else dotProduct q e / (sq (normSq q) * sq (normSq e))

/-- Claim C9: similarity is the dot product divided by the product of the norms,
except that a zero denominator yields similarity 0 — no division by zero: whenever the
denominator is non-zero, multiplying the similarity back by it recovers the dot
product exactly. -/
theorem cosine_similarity_guard (sq : ℚ → ℚ) (q e : List ℚ) :
    (sq (normSq q) * sq (normSq e) = 0 → cosineSim sq q e = 0)
    ∧ (sq (normSq q) * sq (normSq e) ≠ 0 →
        cosineSim sq q e * (sq (normSq q) * sq (normSq e)) = dotProduct q e) := by
  constructor
  · intro h
    rw [cosineSim, if_pos h]
  · intro h
    rw [cosineSim, if_neg h]
    exact div_mul_cancel₀ _ h

/-- Witness for C9 at concrete vectors. -/
theorem cosine_similarity_guard_witness :
    cosineSim id [(1 : ℚ)] [(2 : ℚ)] * (id (normSq [(1 : ℚ)]) * id (normSq [(2 : ℚ)])) =
      dotProduct [(1 : ℚ)] [(2 : ℚ)] :=
  (cosine_similarity_guard id [1] [2]).2 (by norm_num [normSq, dotProduct])

/-! ## Persisted rows, metadata and chunk identifiers -/

/-- A JSON scalar value as stored in chunk metadata. -/
inductive JVal where
  | jnum : Int → JVal
  | jstr : List Char → JVal
deriving DecidableEq

/-- A parsed JSON object (the result of `json.loads` on the metadata column):
association list, first binding wins on lookup. -/
abbrev Meta : Type := List (List Char × JVal)

/-- `metadata.get(key)`; Python `metadata.get(key, default)` is `(metaGet m key).getD default`. -/
def metaGet (m : Meta) (k : List Char) : Option JVal :=
  (m.find? (fun p => decide (p.1 = k))).map (fun p => p.2)

/-- One row of the `documents` table, joined (for the SQLite backend) with the vector
file `vectors/{id}.npy`: `embedding = none` models a missing vector file (SQLite) or a
NULL vector column (pgvector); `metadata = none` models a metadata string that
`json.loads` fails to parse.  Timestamps are `Nat`. -/
structure Row where
  id : List Char
  url : List Char
  title : List Char
  content : List Char
  chunkId : Nat
  ts : Nat
  metadata : Option Meta
  contentHash : List Char
  embedding : Option (List ℚ)
deriving DecidableEq

/-- Decimal digit rendered as a character. -/
def digitChar (d : Nat) : Char := Char.ofNat (48 + d)

/-- Python `str(i)` for a natural number (decimal, most significant digit first). -/
def natStr (i : Nat) : List Char :=
  if i = 0 then ['0'] else ((Nat.digits 10 i).map digitChar).reverse

/-- The chunk id `f"{doc_id}_{i}"`. -/
def chunkRowId (d : List Char) (i : Nat) : List Char := d ++ '_' :: natStr i

/-- Python `s.split('_')[0]`. -/
def splitBase (s : List Char) : List Char := s.takeWhile (fun c => c != '_')

lemma digitChar_inj : ∀ d₁, d₁ < 10 → ∀ d₂, d₂ < 10 → digitChar d₁ = digitChar d₂ → d₁ = d₂ := by
  decide

lemma map_digitChar_inj : ∀ (l₁ l₂ : List Nat), (∀ d ∈ l₁, d < 10) → (∀ d ∈ l₂, d < 10) →
    l₁.map digitChar = l₂.map digitChar → l₁ = l₂
  | [], [], _, _, _ => rfl
  | [], _ :: _, _, _, h => by simp at h
  | _ :: _, [], _, _, h => by simp at h
  | a :: l₁, b :: l₂, h₁, h₂, h => by
      rw [List.map_cons, List.map_cons] at h
      injection h with hd tl
      rw [digitChar_inj a (h₁ a (List.mem_cons_self _ _)) b (h₂ b (List.mem_cons_self _ _)) hd,
        map_digitChar_inj l₁ l₂ (fun d hd' => h₁ d (List.mem_cons_of_mem _ hd'))
          (fun d hd' => h₂ d (List.mem_cons_of_mem _ hd')) tl]

lemma natStr_eq_zero_chars {j : Nat} (h : natStr j = ['0']) : j = 0 := by
  by_cases hj : j = 0
  · exact hj
  · rw [natStr, if_neg hj] at h
    have h' : (Nat.digits 10 j).map digitChar = ['0'] := by
      have := congrArg List.reverse h
      simpa using this
    rcases hd : Nat.digits 10 j with _ | ⟨d, _ | ⟨d', rest⟩⟩
    · rw [hd] at h'; simp at h'
    · rw [hd] at h'
      simp only [List.map_cons, List.map_nil, List.cons.injEq, and_true] at h'
      have hdlt : d < 10 :=
        Nat.digits_lt_base (by norm_num) (by rw [hd]; exact List.mem_cons_self _ _)
      have hd0 : d = 0 :=
        digitChar_inj d hdlt 0 (by norm_num) (h'.trans (by decide : ('0' : Char) = digitChar 0))
      have hod := Nat.ofDigits_digits 10 j
      rw [hd, hd0] at hod
      simpa [Nat.ofDigits] using hod.symm
    · rw [hd] at h'; simp at h'

lemma natStr_zero : natStr 0 = ['0'] := by simp [natStr]

lemma natStr_inj : ∀ i j : Nat, natStr i = natStr j → i = j := by
  intro i j h
  by_cases hi : i = 0 <;> by_cases hj : j = 0
  · rw [hi, hj]
  · rw [hi, natStr_zero] at h
    rw [hi, natStr_eq_zero_chars h.symm]
  · rw [hj, natStr_zero] at h
    rw [hj, natStr_eq_zero_chars h]
  · rw [natStr, natStr, if_neg hi, if_neg hj] at h
    have h' := List.reverse_injective h
    have hdig := map_digitChar_inj _ _
      (fun d hd => Nat.digits_lt_base (by norm_num) hd)
      (fun d hd => Nat.digits_lt_base (by norm_num) hd) h'
    calc i = Nat.ofDigits 10 (Nat.digits 10 i) := (Nat.ofDigits_digits 10 i).symm
      _ = Nat.ofDigits 10 (Nat.digits 10 j) := by rw [hdig]
      _ = j := Nat.ofDigits_digits 10 j

lemma chunkRowId_inj (d : List Char) {i j : Nat} (h : chunkRowId d i = chunkRowId d j) :
    i = j := by
  rw [chunkRowId, chunkRowId] at h
  have h' := List.append_cancel_left h
  injection h' with _ h''
  exact natStr_inj i j h''

lemma natStr_no_underscore (i : Nat) : '_' ∉ natStr i := by
  rw [natStr]
  by_cases hi : i = 0
  · rw [if_pos hi]; decide
  · rw [if_neg hi]
    intro hmem
    rw [List.mem_reverse] at hmem
    rcases List.mem_map.mp hmem with ⟨d, hd, hdc⟩
    have hdlt : d < 10 := Nat.digits_lt_base (by norm_num) hd
    have hall : ∀ d', d' < 10 → digitChar d' ≠ '_' := by decide
    exact hall d hdlt hdc

/-- `s.split('_')[0]` recovers `doc_id` from `f"{doc_id}_{i}"` when `doc_id` itself has
no underscore (an md5 hex digest never does). -/
lemma splitBase_chunkRowId {d : List Char} (hd : '_' ∉ d) (i : Nat) :
    splitBase (chunkRowId d i) = d := by
  rw [splitBase, chunkRowId]
  induction d with
  | nil => simp [List.takeWhile_cons]
  | cons c cs ih =>
      have hc : (c != '_') = true := by
        have : c ≠ '_' := fun hcc => hd (hcc ▸ List.mem_cons_self _ _)
        simpa using this
      have hcs : '_' ∉ cs := fun hmem => hd (List.mem_cons_of_mem _ hmem)
      simp only [List.cons_append, List.takeWhile_cons, hc, if_true]
      exact congrArg (c :: ·) (ih hcs)

/-! ## `add_document` (`rag_system.py` lines 203-271, `rag_system_pgvector.py`
lines 239-311) -/

/-- `INSERT OR REPLACE` keyed on the primary key `id` (likewise pgvector's
`INSERT ... ON CONFLICT (id) DO UPDATE`): replace the matching row, else append. -/
def upsertRow (t : List Row) (row : Row) : List Row :=
  if t.any (fun r => decide (r.id = row.id)) then
    t.map (fun r => if r.id = row.id then row else r)
  else t ++ [row]

/-- The dedup probe `SELECT id FROM documents WHERE url = ? AND content_hash = ? LIMIT 1`
(first matching row in insertion order). -/
def dedupFind (url h : List Char) (t : List Row) : Option Row :=
  t.find? (fun r => decide (r.url = url ∧ r.contentHash = h))

/-- The per-chunk metadata dict
`{**metadata, 'total_chunks': …, 'content_hash': …, 'original_length': …}`: system keys
override caller keys, so with first-binding-wins lookup they are placed in front. -/
def docMetaOf (meta : Meta) (nChunks : Nat) (h : List Char) (origLen : Nat) : Meta :=
  ("total_chunks".toList, JVal.jnum nChunks) ::
    ("content_hash".toList, JVal.jstr h) ::
      ("original_length".toList, JVal.jnum origLen) :: meta

/-- The row written for chunk `(i, c)` by the SQLite backend: the metadata row is
inserted unconditionally, then the embedding is attempted; on failure the row stays
without a vector file (`embedding = none`) — lines 249-267. -/
def sqliteRowOf (embed : List Char → Option (List ℚ)) (freshId : List Char) (ts : Nat)
    (url title h : List Char) (docMeta : Meta) (i : Nat) (c : List Char) : Row :=
  { id := chunkRowId freshId i, url := url, title := title, content := c, chunkId := i,
    ts := ts, metadata := some docMeta, contentHash := h, embedding := embed c }

/-- `BerryRAGSystem.add_document` of the SQLite backend.  The md5 content hash, the
embedding provider (`none` = `encode` raised) and the fresh `doc_id` (md5 of
url + wall-clock time, no underscore) are parameters. -/
def add_document (hash : List Char → List Char) (embed : List Char → Option (List ℚ))
    (freshId : List Char) (ts : Nat) (url title content : List Char) (meta : Meta)
    (table : List Row) : List Char × List Row :=
  match dedupFind url (hash content) table with
  | some r => (splitBase r.id, table)
  | none =>
      (freshId,
        (chunk_text 500 50 content).enum.foldl
          (fun t ic => upsertRow t
            (sqliteRowOf embed freshId ts url title (hash content)
              (docMetaOf meta (chunk_text 500 50 content).length (hash content)
                content.length) ic.1 ic.2)) table)

/-- The row written for chunk `(i, c)` with embedding `e` by the pgvector backend. -/
def pgRowOf (freshId : List Char) (ts : Nat) (url title h : List Char) (docMeta : Meta)
    (i : Nat) (c : List Char) (e : List ℚ) : Row :=
  { id := chunkRowId freshId i, url := url, title := title, content := c, chunkId := i,
    ts := ts, metadata := some docMeta, contentHash := h, embedding := some e }

/-- One iteration of the pgvector insert loop: `continue` when the embedding raised
(`row? = none`), else upsert the completed row. -/
def pgMaybeInsert (row? : Option Row) (t : List Row) : List Row :=
  match row? with
  | none => t
  | some row => upsertRow t row

/-- `BerryRAGSystem.add_document` of the pgvector backend
(`rag_system_pgvector.py` lines 239-311): the embedding is generated *before* the
INSERT, and a failure `continue`s past the INSERT, so the failed chunk is not stored
at all. -/
def add_document_pg (hash : List Char → List Char) (embed : List Char → Option (List ℚ))
    (freshId : List Char) (ts : Nat) (url title content : List Char) (meta : Meta)
    (table : List Row) : List Char × List Row :=
  match dedupFind url (hash content) table with
  | some r => (splitBase r.id, table)
  | none =>
      (freshId,
        (chunk_text 500 50 content).enum.foldl
          (fun t ic => pgMaybeInsert
            ((embed ic.2).map
              (pgRowOf freshId ts url title (hash content)
                (docMetaOf meta (chunk_text 500 50 content).length (hash content)
                  content.length) ic.1 ic.2)) t) table)

lemma upsertRow_self_mem (t : List Row) (row : Row) : row ∈ upsertRow t row := by
  rw [upsertRow]
  split_ifs with h
  · rcases List.any_eq_true.mp h with ⟨r, hr, hrid⟩
    exact List.mem_map.mpr ⟨r, hr, by rw [if_pos (of_decide_eq_true hrid)]⟩
  · exact List.mem_append.mpr (Or.inr (by simp))

lemma upsertRow_subset {r : Row} {t : List Row} {row : Row} (h : r ∈ upsertRow t row) :
    r ∈ t ∨ r = row := by
  rw [upsertRow] at h
  split_ifs at h with hc
  · rcases List.mem_map.mp h with ⟨r₀, hr₀, hr₀e⟩
    by_cases hid : r₀.id = row.id
    · rw [if_pos hid] at hr₀e
      exact Or.inr hr₀e.symm
    · rw [if_neg hid] at hr₀e
      exact Or.inl (hr₀e ▸ hr₀)
  · rcases List.mem_append.mp h with h' | h'
    · exact Or.inl h'
    · exact Or.inr (by simpa using h')

lemma upsertRow_fresh {t : List Row} {row : Row} (h : ∀ r ∈ t, r.id ≠ row.id) :
    upsertRow t row = t ++ [row] := by
  rw [upsertRow, if_neg]
  intro hany
  rcases List.any_eq_true.mp hany with ⟨r, hr, hrid⟩
  exact h r hr (of_decide_eq_true hrid)

lemma foldl_upsert_subset {α : Type} (g : α → Row) :
    ∀ (l : List α) (t : List Row) (r : Row),
      r ∈ l.foldl (fun t x => upsertRow t (g x)) t → r ∈ t ∨ ∃ x ∈ l, r = g x
  | [], _, _, h => Or.inl h
  | x :: l, t, r, h => by
      rw [List.foldl_cons] at h
      rcases foldl_upsert_subset g l (upsertRow t (g x)) r h with h' | ⟨y, hy, hye⟩
      · rcases upsertRow_subset h' with h'' | h''
        · exact Or.inl h''
        · exact Or.inr ⟨x, List.mem_cons_self _ _, h''⟩
      · exact Or.inr ⟨y, List.mem_cons_of_mem _ hy, hye⟩

lemma foldl_upsert_exists_mem {α : Type} (g : α → Row) (l : List α) (hl : l ≠ [])
    (t : List Row) :
    ∃ x ∈ l, g x ∈ l.foldl (fun t x => upsertRow t (g x)) t := by
  rcases List.eq_nil_or_concat l with rfl | ⟨dl, y, rfl⟩
  · exact absurd rfl hl
  · refine ⟨y, by simp, ?_⟩
    rw [List.concat_eq_append, List.foldl_append]
    simp only [List.foldl_cons, List.foldl_nil]
    exact upsertRow_self_mem _ _

lemma foldl_upsert_fresh_append {α : Type} (g : α → Row) :
    ∀ (l : List α) (t : List Row),
      (∀ r ∈ t, ∀ x ∈ l, r.id ≠ (g x).id) →
      l.Pairwise (fun x y => (g x).id ≠ (g y).id) →
      l.foldl (fun t x => upsertRow t (g x)) t = t ++ l.map g
  | [], t, _, _ => by simp
  | x :: l, t, hfresh, hpw => by
      rw [List.foldl_cons,
        upsertRow_fresh (fun r hr => hfresh r hr x (List.mem_cons_self _ _)),
        foldl_upsert_fresh_append g l (t ++ [g x])
          (by
            intro r hr y hy
            rcases List.mem_append.mp hr with h' | h'
            · exact hfresh r h' y (List.mem_cons_of_mem _ hy)
            · have he : r = g x := by simpa using h'
              rw [he]
              exact (List.pairwise_cons.mp hpw).1 y hy)
          ((List.pairwise_cons.mp hpw).2)]
      simp

lemma foldl_pgInsert_fresh_append {α : Type} (g : α → Option Row) :
    ∀ (l : List α) (t : List Row),
      (∀ r ∈ t, ∀ x ∈ l, ∀ row, g x = some row → r.id ≠ row.id) →
      l.Pairwise (fun x y => ∀ rx ry, g x = some rx → g y = some ry → rx.id ≠ ry.id) →
      l.foldl (fun t x => pgMaybeInsert (g x) t) t = t ++ l.filterMap g
  | [], t, _, _ => by simp
  | x :: l, t, hfresh, hpw => by
      simp only [List.foldl_cons]
      rcases hx : g x with _ | row
      · rw [List.filterMap_cons_none hx]
        exact foldl_pgInsert_fresh_append g l t
          (fun r hr y hy => hfresh r hr y (List.mem_cons_of_mem _ hy))
          ((List.pairwise_cons.mp hpw).2)
      · rw [List.filterMap_cons_some hx]
        have h1 : pgMaybeInsert (some row) t = t ++ [row] :=
          upsertRow_fresh (fun r hr => hfresh r hr x (List.mem_cons_self _ _) row hx)
        rw [h1,
          foldl_pgInsert_fresh_append g l (t ++ [row])
            (by
              intro r hr y hy ry hry
              rcases List.mem_append.mp hr with h' | h'
              · exact hfresh r h' y (List.mem_cons_of_mem _ hy) ry hry
              · have he : r = row := by simpa using h'
                rw [he]
                exact (List.pairwise_cons.mp hpw).1 y hy row ry hx hry)
            ((List.pairwise_cons.mp hpw).2)]
        simp

/-- The index components of `enumerate(chunks)` are pairwise distinct. -/
lemma enum_fst_pairwise {α : Type} (l : List α) :
    l.enum.Pairwise (fun x y => x.1 ≠ y.1) := by
  rw [List.pairwise_iff_get]
  intro i j hij
  have hne : i.val ≠ j.val := Nat.ne_of_lt hij
  simpa [List.get_eq_getElem, List.getElem_enum] using hne

/-- Claim C3 (amended): re-adding an identical `(url, content)` pair returns exactly
the first call's result — the same `doc_id` and an unchanged table, hence no change in
stored chunk count and no modified record — provided the fresh `doc_id` contains no
underscore (an md5 hex digest never does) and chunking `content` produced at least one
non-empty chunk. -/
theorem add_document_idempotent (hash : List Char → List Char)
    (embed : List Char → Option (List ℚ)) (id₁ id₂ : List Char) (ts₁ ts₂ : Nat)
    (url title content : List Char) (meta : Meta) (table : List Row)
    (hu : '_' ∉ id₁) (hc : chunk_text 500 50 content ≠ []) :
    add_document hash embed id₂ ts₂ url title content meta
        (add_document hash embed id₁ ts₁ url title content meta table).2
      = add_document hash embed id₁ ts₁ url title content meta table := by
  have henum : (chunk_text 500 50 content).enum ≠ [] := by
    intro h
    apply hc
    have hlen := congrArg List.length h
    rw [List.enum_length, List.length_nil] at hlen
    exact List.length_eq_zero.mp hlen
  rcases hfind : dedupFind url (hash content) table with _ | r
  · simp only [add_document, hfind]
    split
    · rename_i r' hr'
      rw [dedupFind] at hr'
      have hfq := List.find?_some hr'
      have hpr' : r'.url = url ∧ r'.contentHash = hash content := of_decide_eq_true hfq
      have hmem' := List.mem_of_find?_eq_some hr'
      rcases foldl_upsert_subset
          (fun (ic : Nat × List Char) => sqliteRowOf embed id₁ ts₁ url title (hash content)
            (docMetaOf meta (chunk_text 500 50 content).length (hash content)
              content.length) ic.1 ic.2) _ _ _ hmem' with hold | ⟨x', _, hxe⟩
      · exfalso
        rw [dedupFind, List.find?_eq_none] at hfind
        exact hfind r' hold (decide_eq_true hpr')
      · have hid : splitBase r'.id = id₁ := by
          rw [hxe]
          exact splitBase_chunkRowId hu x'.1
        exact Prod.ext hid rfl
    · rename_i hr'
      exfalso
      rw [dedupFind, List.find?_eq_none] at hr'
      obtain ⟨x, _, hgx⟩ := foldl_upsert_exists_mem
        (fun (ic : Nat × List Char) => sqliteRowOf embed id₁ ts₁ url title (hash content)
          (docMetaOf meta (chunk_text 500 50 content).length (hash content)
            content.length) ic.1 ic.2)
        (chunk_text 500 50 content).enum henum table
      exact hr' _ hgx (decide_eq_true ⟨rfl, rfl⟩)
  · simp only [add_document, hfind]

/-- A stand-in for the md5 hex digest function in concrete instances. -/
def hashModel : List Char → List Char := fun c => c.take 4

/-- An embedding provider whose `encode` always raises. -/
def embedFail : List Char → Option (List ℚ) := fun _ => none

/-- 501 spaces: longer than `chunk_size`, and every window strips to empty, so
`chunk_text` returns no chunks and nothing is ever stored. -/
def wsContent : List Char := List.replicate 501 ' '

/-- Counterexample to claim C3 as stated: for whitespace-only content longer than
`chunk_size`, the first call stores nothing, so the second identical call finds no
existing row and returns its own fresh `doc_id`, different from the first call's. -/
theorem add_document_dedup_cex :
    (add_document hashModel embedFail ['d'] 0 ['u'] [] wsContent [] []).1 = ['d']
    ∧ (add_document hashModel embedFail ['e'] 1 ['u'] [] wsContent []
        (add_document hashModel embedFail ['d'] 0 ['u'] [] wsContent [] []).2).1 = ['e']
    ∧ (['e'] : List Char) ≠ ['d'] := by decide

/-- Witness for C3 at concrete inputs. -/
theorem add_document_idempotent_witness :
    add_document hashModel embedFail ['e'] 1 ['u'] [] ['h', 'i'] []
        (add_document hashModel embedFail ['d'] 0 ['u'] [] ['h', 'i'] [] []).2
      = add_document hashModel embedFail ['d'] 0 ['u'] [] ['h', 'i'] [] [] :=
  add_document_idempotent hashModel embedFail ['d'] ['e'] 0 1 ['u'] [] ['h', 'i'] [] []
    (by decide) (by decide)

/-! ## `search` (`rag_system.py` lines 273-325) -/

/-- One retained search result (`QueryResult`): the hydrated document row with its
parsed metadata, and the similarity; the returned `chunk_text` equals the row's
`content`. -/
structure Hit where
  row : Row
  meta : Meta
  sim : ℚ
deriving DecidableEq

/-- The scan-loop body for one row of `SELECT *`: skip when the vector file is missing
(line 291); compute the cosine similarity; keep the row iff
`similarity >= similarity_threshold` (line 306); while hydrating the `Document`,
`json.loads` on unparsable metadata raises and the `except` clause drops the row with a
logged error (lines 319-321). -/
def hitOf (sq : ℚ → ℚ) (qe : List ℚ) (θ : ℚ) (r : Row) : Option Hit :=
  r.embedding.bind (fun e =>
    if θ ≤ cosineSim sq qe e then
      r.metadata.bind (fun m => some { row := r, meta := m, sim := cosineSim sq qe e })
    else none)

/-- The sort key relation of `results.sort(key=lambda x: x.similarity, reverse=True)`:
descending similarity.  Python's sort is stable; so is `List.insertionSort` (an earlier
element is inserted in front of later elements with an equal key). -/
def hitGE (a b : Hit) : Prop := b.sim ≤ a.sim

instance : DecidableRel hitGE := fun a b => inferInstanceAs (Decidable (b.sim ≤ a.sim))

/-- `BerryRAGSystem.search`: `rows` is the result of
`SELECT * FROM documents ORDER BY timestamp DESC` (most recent first); scan and filter
by threshold, stable-sort by similarity descending, return the first `top_k`. -/
def search (sq : ℚ → ℚ) (qe : List ℚ) (topK : Nat) (θ : ℚ) (rows : List Row) : List Hit :=
  ((rows.filterMap (hitOf sq qe θ)).insertionSort hitGE).take topK

/-- The deterministic result order claimed by the spec: strictly greater similarity
first, ties broken by the more recent timestamp. -/
def rankedBefore (a b : Hit) : Prop :=
  b.sim < a.sim ∨ (a.sim = b.sim ∧ b.row.ts ≤ a.row.ts)

lemma hitOf_some {sq : ℚ → ℚ} {qe : List ℚ} {θ : ℚ} {r : Row} {h : Hit}
    (hh : hitOf sq qe θ r = some h) :
    h.row = r ∧ θ ≤ h.sim ∧ r.metadata = some h.meta := by
  rw [hitOf] at hh
  rcases Option.bind_eq_some.mp hh with ⟨e, _, hif⟩
  by_cases hθ : θ ≤ cosineSim sq qe e
  · rw [if_pos hθ] at hif
    rcases Option.bind_eq_some.mp hif with ⟨m, hm, hsome⟩
    have heq := Option.some.inj hsome
    subst heq
    exact ⟨rfl, hθ, hm⟩
  · rw [if_neg hθ] at hif
    exact absurd hif (by simp)

lemma hitOf_none_embedding {sq : ℚ → ℚ} {qe : List ℚ} {θ : ℚ} {r : Row}
    (h : r.embedding = none) : hitOf sq qe θ r = none := by
  rw [hitOf, h, Option.none_bind]

lemma hitOf_none_metadata {sq : ℚ → ℚ} {qe : List ℚ} {θ : ℚ} {r : Row}
    (h : r.metadata = none) : hitOf sq qe θ r = none := by
  rw [hitOf]
  cases he : r.embedding with
  | none => rw [Option.none_bind]
  | some e =>
      rw [Option.some_bind, h]
      split_ifs <;> simp

/-- Stability of one insertion step: inserting an element whose timestamp dominates
everything already placed preserves the ranked order. -/
lemma orderedInsert_ranked (x : Hit) :
    ∀ (l : List Hit), l.Pairwise rankedBefore → (∀ y ∈ l, y.row.ts ≤ x.row.ts) →
      (List.orderedInsert hitGE x l).Pairwise rankedBefore
  | [], _, _ => by simp [rankedBefore]
  | b :: t, hpw, hts => by
      rw [List.orderedInsert]
      by_cases hr : hitGE x b
      · rw [if_pos hr]
        refine List.pairwise_cons.mpr ⟨?_, hpw⟩
        intro y hy
        rcases List.mem_cons.mp hy with rfl | hyt
        · rcases lt_or_eq_of_le hr with hlt | heq
          · exact Or.inl hlt
          · exact Or.inr ⟨heq.symm, hts y (List.mem_cons_self _ _)⟩
        · have hby := (List.pairwise_cons.mp hpw).1 y hyt
          have hyb : y.sim ≤ b.sim := by
            rcases hby with h' | ⟨h', _⟩
            · exact le_of_lt h'
            · exact le_of_eq h'.symm
          have hyx : y.sim ≤ x.sim := le_trans hyb hr
          rcases lt_or_eq_of_le hyx with hlt | heq
          · exact Or.inl hlt
          · exact Or.inr ⟨heq.symm, hts y (List.mem_cons_of_mem _ hyt)⟩
      · rw [if_neg hr]
        have hxb : x.sim < b.sim := lt_of_not_le hr
        refine List.pairwise_cons.mpr ⟨?_, ?_⟩
        · intro y hy
          rcases (List.mem_orderedInsert hitGE).mp hy with rfl | hyt
          · exact Or.inl hxb
          · exact (List.pairwise_cons.mp hpw).1 y hyt
        · exact orderedInsert_ranked x t (List.pairwise_cons.mp hpw).2
            (fun y hy => hts y (List.mem_cons_of_mem _ hy))

/-- Stability of the whole sort: a timestamp-descending input yields an output ordered
by similarity descending with timestamp-descending tie-breaks. -/
lemma insertionSort_ranked :
    ∀ l : List Hit, l.Pairwise (fun a b => b.row.ts ≤ a.row.ts) →
      (List.insertionSort hitGE l).Pairwise rankedBefore
  | [], _ => by simp
  | x :: t, hpw => by
      rw [List.insertionSort]
      apply orderedInsert_ranked
      · exact insertionSort_ranked t (List.pairwise_cons.mp hpw).2
      · intro y hy
        have hyt : y ∈ t := (List.perm_insertionSort hitGE t).subset hy
        exact (List.pairwise_cons.mp hpw).1 y hyt

/-- Claim C4: for every query embedding, `top_k ≥ 1` and threshold, and rows listed
most-recent-first, `search` returns at most `top_k` results, only results with
similarity `≥ similarity_threshold`, in similarity-descending order with ties broken
by the more recent timestamp. -/
theorem search_spec (sq : ℚ → ℚ) (qe : List ℚ) (topK : Nat) (θ : ℚ) (rows : List Row)
    (_hk : 1 ≤ topK) (hts : rows.Pairwise (fun a b => b.ts ≤ a.ts)) :
    (search sq qe topK θ rows).length ≤ topK
    ∧ (∀ h ∈ search sq qe topK θ rows, θ ≤ h.sim)
    ∧ (search sq qe topK θ rows).Pairwise rankedBefore := by
  refine ⟨?_, ?_, ?_⟩
  · rw [search, List.length_take]
    exact min_le_left _ _
  · intro h hh
    rw [search] at hh
    have h1 := (List.take_sublist _ _).subset hh
    have h2 := (List.perm_insertionSort hitGE _).subset h1
    rcases List.mem_filterMap.mp h2 with ⟨r, _, hr⟩
    exact (hitOf_some hr).2.1
  · rw [search]
    apply List.Pairwise.sublist (List.take_sublist _ _)
    apply insertionSort_ranked
    apply List.Pairwise.filterMap (hitOf sq qe θ) ?_ hts
    intro a a' hR x hx y hy
    rw [Option.mem_def] at hx hy
    have hx' := (hitOf_some hx).1
    have hy' := (hitOf_some hy).1
    rw [hx', hy']
    exact hR

/-- A recent stored chunk (timestamp 5) with a vector. -/
def rowW1 : Row :=
  { id := ['a'], url := ['u'], title := [], content := ['x'], chunkId := 0, ts := 5,
    metadata := some [], contentHash := [], embedding := some [1] }

/-- An older stored chunk (timestamp 3) with a vector. -/
def rowW2 : Row :=
  { id := ['b'], url := ['u'], title := [], content := ['y'], chunkId := 0, ts := 3,
    metadata := some [], contentHash := [], embedding := some [1] }

/-- Witness for C4 at a concrete store. -/
theorem search_spec_witness :
    (search id [1] 5 0 [rowW1, rowW2]).length ≤ 5
    ∧ (∀ h ∈ search id [1] 5 0 [rowW1, rowW2], 0 ≤ h.sim)
    ∧ (search id [1] 5 0 [rowW1, rowW2]).Pairwise rankedBefore :=
  search_spec id [1] 5 0 [rowW1, rowW2] (by norm_num) (by decide)

/-! ## `list_documents` (`rag_system.py` lines 363-391) and malformed metadata -/

/-- One row of the `GROUP BY url, title` aggregation query of `list_documents`:
`metadata = none` models a NULL or unparsable `MAX(metadata)` value. -/
structure DocGroupRow where
  url : List Char
  title : List Char
  latestTs : Nat
  chunkCount : Nat
  metadata : Option Meta
deriving DecidableEq

/-- One dict of the `list_documents` result. -/
structure DocEntry where
  url : List Char
  title : List Char
  timestamp : Nat
  chunkCount : Nat
  contentLength : JVal
  source : JVal
deriving DecidableEq

/-- The loop body of `list_documents` for one aggregated row: unparsable or NULL
metadata becomes the empty dict (`except: metadata = {}`), then
`metadata.get('original_length', 0)` and `metadata.get('source', 'unknown')`. -/
def entryOf (g : DocGroupRow) : DocEntry :=
  { url := g.url, title := g.title, timestamp := g.latestTs, chunkCount := g.chunkCount,
    contentLength := (metaGet (g.metadata.getD []) "original_length".toList).getD (JVal.jnum 0),
    source := (metaGet (g.metadata.getD []) "source".toList).getD (JVal.jstr "unknown".toList) }

/-- `BerryRAGSystem.list_documents`, given the aggregated rows. -/
def list_documents (grows : List DocGroupRow) : List DocEntry := grows.map entryOf

lemma filterMap_hitOf_filter (sq : ℚ → ℚ) (qe : List ℚ) (θ : ℚ) :
    ∀ rows : List Row,
      rows.filterMap (hitOf sq qe θ)
        = (rows.filter (fun r => r.metadata.isSome)).filterMap (hitOf sq qe θ)
  | [] => rfl
  | r :: rest => by
      cases hm : r.metadata with
      | none =>
          rw [List.filterMap_cons_none (hitOf_none_metadata hm)]
          have hfil : (r :: rest).filter (fun r => r.metadata.isSome)
              = rest.filter (fun r => r.metadata.isSome) := by
            simp [List.filter_cons, hm]
          rw [hfil]
          exact filterMap_hitOf_filter sq qe θ rest
      | some m =>
          have hfil : (r :: rest).filter (fun r => r.metadata.isSome)
              = r :: rest.filter (fun r => r.metadata.isSome) := by
            simp [List.filter_cons, hm]
          rw [hfil]
          cases hh : hitOf sq qe θ r with
          | none =>
              rw [List.filterMap_cons_none hh, List.filterMap_cons_none hh]
              exact filterMap_hitOf_filter sq qe θ rest
          | some ht =>
              rw [List.filterMap_cons_some hh, List.filterMap_cons_some hh,
                filterMap_hitOf_filter sq qe θ rest]

/-- Claim C8 (amended): neither reader crashes on unparsable metadata, but they treat
it differently.  `search` silently *skips* such chunks — it behaves exactly as if they
were absent from the table, and every returned result carries successfully parsed
metadata.  `list_documents` keeps every aggregated row, replacing unparsable metadata
by the empty dict, so the entry reports `content_length = 0` and
`source = 'unknown'`. -/
theorem malformed_metadata_handling (sq : ℚ → ℚ) (qe : List ℚ) (topK : Nat) (θ : ℚ)
    (rows : List Row) (grows : List DocGroupRow) :
    search sq qe topK θ rows
        = search sq qe topK θ (rows.filter (fun r => r.metadata.isSome))
    ∧ (∀ h ∈ search sq qe topK θ rows, h.row.metadata = some h.meta)
    ∧ (list_documents grows).length = grows.length
    ∧ (∀ g ∈ grows, g.metadata = none →
        entryOf g = { url := g.url, title := g.title, timestamp := g.latestTs,
                      chunkCount := g.chunkCount, contentLength := JVal.jnum 0,
                      source := JVal.jstr "unknown".toList }) := by
  refine ⟨?_, ?_, ?_, ?_⟩
  · rw [search, search, filterMap_hitOf_filter]
  · intro h hh
    rw [search] at hh
    have h1 := (List.take_sublist _ _).subset hh
    have h2 := (List.perm_insertionSort hitGE _).subset h1
    rcases List.mem_filterMap.mp h2 with ⟨r, _, hr⟩
    have hs := hitOf_some hr
    rw [hs.1]
    exact hs.2.2
  · rw [list_documents, List.length_map]
  · intro g _ hm
    rw [entryOf, hm]
    rfl

/-- A stored chunk whose persisted metadata does not parse, but whose vector is intact
and maximally similar to the query. -/
def rowBadMeta : Row :=
  { id := ['c'], url := ['u'], title := [], content := ['t'], chunkId := 0, ts := 0,
    metadata := none, contentHash := [], embedding := some [1] }

/-- Counterexample to claim C8 as stated: the chunk's similarity (1) clears the default
threshold 0.1, yet `search` returns nothing — the chunk is dropped, not returned with
empty metadata. -/
theorem malformed_metadata_search_cex :
    (1 / 10 : ℚ) ≤ cosineSim id [1] [1]
    ∧ search id [1] 5 (1 / 10) [rowBadMeta] = [] := by
  constructor
  · norm_num [cosineSim, normSq, dotProduct]
  · rw [search, List.filterMap_cons_none (hitOf_none_metadata rfl), List.filterMap_nil]
    rfl

/-- Claim C5 (amended): under a fresh ingest (dedup miss, no id collisions), the two
backends differ when embedding chunk `k` fails.  The SQLite backend appends a metadata
row for *every* chunk, the failed one carrying no vector (`embedding = none`), and such
a row can never become a similarity hit; the pgvector backend appends rows only for
chunks whose embedding succeeded, so the failed chunk is not recorded at all.  In both
backends the pre-existing rows and the successfully embedded chunks 0..k-1 stay
committed. -/
theorem add_document_embed_failure (hash : List Char → List Char)
    (embed : List Char → Option (List ℚ)) (freshId : List Char) (ts : Nat)
    (url title content : List Char) (meta : Meta) (table : List Row)
    (sq : ℚ → ℚ) (qe : List ℚ) (θ : ℚ)
    (hmiss : dedupFind url (hash content) table = none)
    (hfresh : ∀ r ∈ table, ∀ i : Nat, r.id ≠ chunkRowId freshId i) :
    (add_document hash embed freshId ts url title content meta table).2
      = table ++ (chunk_text 500 50 content).enum.map
          (fun ic => sqliteRowOf embed freshId ts url title (hash content)
            (docMetaOf meta (chunk_text 500 50 content).length (hash content)
              content.length) ic.1 ic.2)
    ∧ (add_document_pg hash embed freshId ts url title content meta table).2
      = table ++ (chunk_text 500 50 content).enum.filterMap
          (fun ic => (embed ic.2).map
            (pgRowOf freshId ts url title (hash content)
              (docMetaOf meta (chunk_text 500 50 content).length (hash content)
                content.length) ic.1 ic.2))
    ∧ (∀ i c, (i, c) ∈ (chunk_text 500 50 content).enum → embed c = none →
        (∃ r ∈ (add_document hash embed freshId ts url title content meta table).2,
            r.id = chunkRowId freshId i ∧ r.embedding = none ∧ r.content = c)
        ∧ (∀ r ∈ (add_document_pg hash embed freshId ts url title content meta table).2,
            r.id ≠ chunkRowId freshId i))
    ∧ (∀ r : Row, r.embedding = none → hitOf sq qe θ r = none) := by
  have hA : (add_document hash embed freshId ts url title content meta table).2
      = table ++ (chunk_text 500 50 content).enum.map
          (fun ic => sqliteRowOf embed freshId ts url title (hash content)
            (docMetaOf meta (chunk_text 500 50 content).length (hash content)
              content.length) ic.1 ic.2) := by
    rw [add_document, hmiss]
    exact foldl_upsert_fresh_append _ _ _
      (fun r hr x _ => hfresh r hr x.1)
      ((enum_fst_pairwise _).imp (fun h heq => h (chunkRowId_inj _ heq)))
  have hB : (add_document_pg hash embed freshId ts url title content meta table).2
      = table ++ (chunk_text 500 50 content).enum.filterMap
          (fun ic => (embed ic.2).map
            (pgRowOf freshId ts url title (hash content)
              (docMetaOf meta (chunk_text 500 50 content).length (hash content)
                content.length) ic.1 ic.2)) := by
    have hfold := foldl_pgInsert_fresh_append
      (fun (ic : Nat × List Char) => (embed ic.2).map
        (pgRowOf freshId ts url title (hash content)
          (docMetaOf meta (chunk_text 500 50 content).length (hash content)
            content.length) ic.1 ic.2))
      (chunk_text 500 50 content).enum table
      (fun r hr x _ row hrow => by
        rcases Option.map_eq_some'.mp hrow with ⟨e, _, rfl⟩
        exact hfresh r hr x.1)
      ((enum_fst_pairwise _).imp (fun h rx ry hrx hry => by
        rcases Option.map_eq_some'.mp hrx with ⟨ex, _, rfl⟩
        rcases Option.map_eq_some'.mp hry with ⟨ey, _, rfl⟩
        exact fun heq => h (chunkRowId_inj _ heq)))
    rw [add_document_pg, hmiss]
    exact hfold
  refine ⟨hA, hB, ?_, fun r h => hitOf_none_embedding h⟩
  intro i c hm hec
  constructor
  · rw [hA]
    exact ⟨sqliteRowOf embed freshId ts url title (hash content)
        (docMetaOf meta (chunk_text 500 50 content).length (hash content)
          content.length) i c,
      List.mem_append_right _ (List.mem_map.mpr ⟨(i, c), hm, rfl⟩),
      rfl, hec, rfl⟩
  · rw [hB]
    intro r hr
    rcases List.mem_append.mp hr with hold | hnew
    · exact hfresh r hold i
    · rcases List.mem_filterMap.mp hnew with ⟨x, hx, hgx⟩
      rcases Option.map_eq_some'.mp hgx with ⟨e, hse, rfl⟩
      intro heq
      have hxi : x.1 = i := chunkRowId_inj _ heq
      have h1 := List.mem_enum_iff_getElem?.mp hx
      have h2 := List.mem_enum_iff_getElem?.mp hm
      rw [hxi] at h1
      have hxc : x.2 = c := by
        rw [h1] at h2
        exact Option.some.inj h2
      rw [hxc, hec] at hse
      exact Option.noConfusion hse

/-- Counterexample to claim C5 as stated: a single chunk whose embedding generation
fails is recorded (without a vector) by the SQLite backend but not recorded at all by
the pgvector backend — the two persistence backends do not exhibit the same
behavior. -/
theorem add_document_embed_failure_cex :
    (add_document_pg hashModel embedFail ['d'] 0 ['u'] [] ['h', 'i'] [] []).2 = []
    ∧ ((add_document hashModel embedFail ['d'] 0 ['u'] [] ['h', 'i'] [] []).2.map
        (fun r => (r.id, r.embedding))) = [(['d', '_', '0'], none)] := by decide

/-- Witness for C5 at concrete inputs. -/
theorem add_document_embed_failure_witness :
    (add_document hashModel embedFail ['d'] 0 ['u'] [] ['h', 'i'] [] []).2
      = [] ++ (chunk_text 500 50 ['h', 'i']).enum.map
          (fun ic => sqliteRowOf embedFail ['d'] 0 ['u'] [] (hashModel ['h', 'i'])
            (docMetaOf [] (chunk_text 500 50 ['h', 'i']).length (hashModel ['h', 'i'])
              (['h', 'i'] : List Char).length) ic.1 ic.2) :=
  (add_document_embed_failure hashModel embedFail ['d'] 0 ['u'] [] ['h', 'i'] [] []
    id [1] 0 rfl (fun r hr _ => absurd hr (List.not_mem_nil r))).1

/-- An aggregated document row whose stored metadata does not parse. -/
def groupBad : DocGroupRow :=
  { url := ['u'], title := [], latestTs := 0, chunkCount := 1, metadata := none }

/-! ## `get_context_for_query` (`rag_system.py` lines 327-361) -/

/-- The first element of `context_parts`: `f"🔍 Context for query: '{query}'\n"`. -/
def headerOf (query : List Char) : List Char :=
  "🔍 Context for query: ".toList ++ Char.ofNat 39 :: (query ++ Char.ofNat 39 :: ['\n'])

/-- The early return `f"No relevant context found for query: {query}"`. -/
def noContextMsg (query : List Char) : List Char :=
  "No relevant context found for query: ".toList ++ query

/-- The truncation marker appended to a cut block. -/
def truncMarker : List Char := "\n[Content truncated...]\n---\n".toList

/-- The greedy block loop (lines 337-356): append a full block while it fits; when the
next block does not fit, append `block[:remaining-50]` plus the truncation marker only
if `remaining_chars > 200`, then stop.  `remaining_chars = max_chars - total_chars` is
a Python `int` and may be negative, hence the `Int` subtraction. -/
def buildParts (maxChars : Nat) : Nat → List (List Char) → List (List Char)
  | _, [] => []
  | total, p :: rest =>
    if total + p.length ≤ maxChars then p :: buildParts maxChars (total + p.length) rest
    else if (200 : Int) < (maxChars : Int) - (total : Int) then
      [p.take ((maxChars : Int) - (total : Int) - 50).toNat ++ truncMarker]
    else []

/-- `BerryRAGSystem.get_context_for_query`, abstracted over the formatted result
blocks `parts` (one per search hit, in rank order); `parts = []` is the no-results
path. -/
def get_context_for_query (query : List Char) (maxChars : Nat)
    (parts : List (List Char)) : List Char :=
  if parts = [] then noContextMsg query
  else List.flatten (headerOf query :: buildParts maxChars (headerOf query).length parts)

lemma buildParts_spec (maxChars : Nat) :
    ∀ (parts : List (List Char)) (total : Nat), total ≤ maxChars →
      total + ((buildParts maxChars total parts).map List.length).sum ≤ maxChars
      ∧ ∃ k rest, buildParts maxChars total parts = parts.take k ++ rest ∧ rest.length ≤ 1
  | [], total, h => by
      refine ⟨by simpa using h, 0, [], by simp [buildParts], by norm_num⟩
  | p :: parts, total, h => by
      rw [buildParts]
      by_cases h1 : total + p.length ≤ maxChars
      · rw [if_pos h1]
        rcases buildParts_spec maxChars parts (total + p.length) h1 with
          ⟨hle, k, rest, heq, hrl⟩
        refine ⟨?_, k + 1, rest, ?_, hrl⟩
        · simp only [List.map_cons, List.sum_cons]
          omega
        · rw [List.take_succ_cons, heq]
          rfl
      · rw [if_neg h1]
        by_cases h2 : (200 : Int) < (maxChars : Int) - (total : Int)
        · rw [if_pos h2]
          refine ⟨?_, 0, [List.take ((maxChars : Int) - (total : Int) - 50).toNat p
            ++ truncMarker], by simp, by norm_num⟩
          simp only [List.map_cons, List.map_nil, List.sum_cons, List.sum_nil,
            List.length_append]
          have htm : truncMarker.length = 28 := by decide
          have htake : (List.take ((maxChars : Int) - (total : Int) - 50).toNat p).length
              ≤ ((maxChars : Int) - (total : Int) - 50).toNat := by
            rw [List.length_take]
            exact min_le_left _ _
          omega
        · rw [if_neg h2]
          exact ⟨by simpa using h, 0, [], by simp, by norm_num⟩

/-- Claim C6 (amended): as soon as at least one result block exists and the query
header itself fits in `max_chars`, the assembled context never exceeds `max_chars` at
all (in particular it never exceeds it by more than the truncation-marker overhead),
and the emitted blocks are an in-rank-order prefix of the full blocks followed by at
most one truncated block (so nothing is attempted after a truncation).  Without those
provisos the fixed header or the no-results message is returned regardless of
`max_chars` (see the counterexample). -/
theorem get_context_budget (query : List Char) (maxChars : Nat)
    (parts : List (List Char)) (hp : parts ≠ [])
    (hh : (headerOf query).length ≤ maxChars) :
    (get_context_for_query query maxChars parts).length ≤ maxChars
    ∧ ∃ k rest, buildParts maxChars (headerOf query).length parts
        = parts.take k ++ rest ∧ rest.length ≤ 1 := by
  rcases buildParts_spec maxChars parts (headerOf query).length hh with ⟨hle, hform⟩
  refine ⟨?_, hform⟩
  rw [get_context_for_query, if_neg hp, List.length_flatten]
  simpa using hle

/-- Counterexample to claim C6 as stated: with `max_chars = 0` and no passing results,
the returned no-context message (which embeds the query) exceeds `max_chars` by far
more than the truncation-marker overhead. -/
theorem get_context_budget_cex :
    ¬ ((get_context_for_query (List.replicate 40 'q') 0 []).length
        ≤ 0 + truncMarker.length) := by decide

/-- Witness for C6 at concrete inputs. -/
theorem get_context_budget_witness :
    (get_context_for_query ['q'] 100 [['a']]).length ≤ 100
    ∧ ∃ k rest, buildParts 100 (headerOf ['q']).length [['a']]
        = [['a']].take k ++ rest ∧ rest.length ≤ 1 :=
  get_context_budget ['q'] 100 [['a']] (by decide) (by decide)

/-! ## pgvector `_init_database` (`rag_system_pgvector.py` lines 139-189) -/

/-- The pgvector storage state: the `system_config` keys `embedding_dimension` and
`embedding_provider` (absent rows modelled as `none`), and the `documents` table. -/
structure PgState where
  configDim : Option Nat
  configProvider : Option (List Char)
  rows : List Row
deriving DecidableEq

/-- `BerryRAGSystem._init_database`: read `system_config['embedding_dimension']`
(1536 when absent); when it differs from the active provider's dimension, DROP the
vector index and the `embedding` column — destroying every stored vector — ADD an
empty vector column of the new dimension, and upsert the new dimension and provider
into `system_config`; when the dimensions agree, leave everything unchanged. -/
def init_database (dim : Nat) (provider : List Char) (s : PgState) : PgState :=
  if s.configDim.getD 1536 ≠ dim then
    { configDim := some dim,
      configProvider := some provider,
      rows := s.rows.map (fun r => { r with embedding := none }) }
  else s

/-- Claim C7 (amended): engine construction against storage persisted at a different
embedding dimension is NOT vector-preserving: without any caller-initiated migration
it erases every stored vector (the embedding column is dropped and recreated empty)
and records the new dimension; only when the persisted and active dimensions agree is
storage left unchanged. -/
theorem init_database_spec (dim : Nat) (provider : List Char) (s : PgState) :
    (s.configDim.getD 1536 = dim → init_database dim provider s = s)
    ∧ (s.configDim.getD 1536 ≠ dim →
        (init_database dim provider s).configDim = some dim
        ∧ (init_database dim provider s).rows.length = s.rows.length
        ∧ ∀ r ∈ (init_database dim provider s).rows, r.embedding = none) := by
  constructor
  · intro h
    rw [init_database, if_neg (fun hc => hc h)]
  · intro h
    rw [init_database, if_pos h]
    refine ⟨rfl, by simp, ?_⟩
    intro r hr
    rcases List.mem_map.mp hr with ⟨r₀, _, rfl⟩
    rfl

/-- A pgvector store persisted at dimension 1536 holding one chunk with a vector. -/
def pgStateOld : PgState :=
  { configDim := some 1536, configProvider := some "openai".toList,
    rows := [{ id := ['a'], url := ['u'], title := [], content := ['x'], chunkId := 0,
               ts := 0, metadata := some [], contentHash := [], embedding := some [1, 2] }] }

/-- Counterexample to claim C7 as stated: constructing the engine with the simple
provider (dimension 128) against storage persisted at dimension 1536 silently erases
the stored vector — no caller-initiated migration is required. -/
theorem init_database_cex :
    (pgStateOld.rows.map (fun r => r.embedding)) = [some [1, 2]]
    ∧ ((init_database 128 "simple".toList pgStateOld).rows.map (fun r => r.embedding))
        = [none]
    ∧ (init_database 128 "simple".toList pgStateOld).configDim = some 128 :=
  ⟨rfl, rfl, rfl⟩

/-- Witness for C7: both branches exercised at concrete states. -/
theorem init_database_spec_witness :
    init_database 1536 "openai".toList pgStateOld = pgStateOld
    ∧ ((init_database 128 "simple".toList pgStateOld).configDim = some 128
        ∧ (init_database 128 "simple".toList pgStateOld).rows.length
            = pgStateOld.rows.length
        ∧ ∀ r ∈ (init_database 128 "simple".toList pgStateOld).rows,
            r.embedding = none) :=
  ⟨(init_database_spec 1536 "openai".toList pgStateOld).1 rfl,
   (init_database_spec 128 "simple".toList pgStateOld).2 (by decide)⟩

/-- Witness for C8 at concrete inputs. -/
theorem malformed_metadata_handling_witness :
    search id [1] 5 0 [rowBadMeta]
        = search id [1] 5 0 ([rowBadMeta].filter (fun r => r.metadata.isSome))
    ∧ (∀ h ∈ search id [1] 5 0 [rowBadMeta], h.row.metadata = some h.meta)
    ∧ (list_documents [groupBad]).length = [groupBad].length
    ∧ (∀ g ∈ [groupBad], g.metadata = none →
        entryOf g = { url := g.url, title := g.title, timestamp := g.latestTs,
                      chunkCount := g.chunkCount, contentLength := JVal.jnum 0,
                      source := JVal.jstr "unknown".toList }) :=
  malformed_metadata_handling id [1] 5 0 [rowBadMeta] [groupBad]

end BerryRAG
